import Mathlib

/-!
Verification of the asynchronous coordination core of the reactodia-workspace
repository: `mapAbortedToNull`, `raceAbortSignal`, `delay`, `AbortScope`,
`raceHappyEyes`, `AsyncLock` (all from the async utilities module) and
`KeyedObserver` (from `src/coreUtils/keyedObserver.ts`).

The JavaScript code is shallowly embedded: promises are modelled by their
settlement outcome, abort signals by an (aborted, reason) view at the relevant
instant, event-loop executions by deterministic discrete-event simulations, and
side effects (timer scheduling, listener registration/removal, promise
resolution) by explicit fields of result records.  Each definition follows the
corresponding source function line by line; deviations of the source from its
natural-language specification are established by evaluating the embedding on
concrete inputs.
-/

namespace Reactodia

/-- Settlement outcome of a promise: fulfilled with a value or rejected with an
error. -/
inductive Settle (E T : Type) where
  | resolved (v : T)
  | rejected (e : E)
deriving DecidableEq, Repr

/-- View of an `AbortSignal` at a given instant: its `aborted` flag and the
abort `reason` (modelled as a numeric code; only compared for identity). -/
structure Sig where
  aborted : Bool
  reason : Nat
deriving DecidableEq, Repr

/-- Whether an optional signal is present and aborted, i.e. the JavaScript
test `signal && signal.aborted`. -/
def sigAborted : Option Sig → Bool
  | none => false
  | some s => s.aborted

/- ### mapAbortedToNull

Source:
```
const onResolve = (value) => { if (signal && signal.aborted) { return null; } return value; };
const onReject = (err) => { if (signal && signal.aborted) { return null; } return Promise.reject(err); };
return promise.then(onResolve, onReject);
```
`T | null` is embedded as `Option T` (with `none` for `null`); the handlers
read the signal at the instant the promise settles. -/

/-- Fulfillment handler of `mapAbortedToNull`. -/
def onResolveMA {T : Type} (signal : Option Sig) (v : T) : Option T :=
  if sigAborted signal then none else some v

/-- Rejection handler of `mapAbortedToNull`: recovers to `null` when the
signal is aborted, otherwise re-throws. -/
def onRejectMA {E T : Type} (signal : Option Sig) (e : E) : Settle E (Option T) :=
  if sigAborted signal then Settle.resolved none else Settle.rejected e

/-- Embedding of `mapAbortedToNull`: `promise.then(onResolve, onReject)`
applied to the settlement of the input promise, with the signal sampled at
settlement time. -/
def mapAbortedToNull {E T : Type} (p : Settle E T) (signal : Option Sig) :
    Settle E (Option T) :=
  match p with
  | Settle.resolved v => Settle.resolved (onResolveMA signal v)
  | Settle.rejected e => onRejectMA signal e

/-- Modelled from the spec side for comparison: pass the settlement through,
wrapping a fulfillment value in `some`. -/
def passThroughSome {E T : Type} : Settle E T → Settle E (Option T)
  | Settle.resolved v => Settle.resolved (some v)
  | Settle.rejected e => Settle.rejected e

/- ### raceAbortSignal

Source (signal defined):
```
let cleanup;
const abortPromise = new Promise((resolve, reject) => {
  cleanup = () => { signal.removeEventListener('abort', onAbort); cleanup = undefined; };
  const onAbort = () => { cleanup?.(); try { signal.throwIfAborted(); } catch (err) { reject(err); } ... };
  signal.addEventListener('abort', onAbort);
});
return Promise.race([promise, abortPromise]).then(result => { cleanup?.(); return result; });
```
The embedding is driven by which side settles the race first; the
`listenerRemoved` field records whether `cleanup` ran (removing the abort
listener). -/

/-- First event deciding the race in `raceAbortSignal`: the given promise
fulfills, the given promise rejects, or the signal aborts with a reason. -/
inductive RaceFirst (T : Type) where
  | resolves (v : T)
  | rejects (e : Nat)
  | aborts (r : Nat)
deriving DecidableEq, Repr

/-- Observable outcome of a `raceAbortSignal` call with a defined signal:
the settlement of the returned promise and whether the abort listener that
the call registered on the signal has been removed once that settlement
happened. -/
structure RaceOutcome (T : Type) where
  result : Settle Nat T
  listenerRemoved : Bool
deriving DecidableEq, Repr

/-- Embedding of `raceAbortSignal` with a defined signal, by case on the first
event.  When the promise fulfills, the race's `.then` handler runs `cleanup`.
When the promise rejects, the race rejects and the `.then` call has no
rejection handler, so `cleanup` is never invoked.  When the signal aborts
first, `onAbort` runs `cleanup` itself and rejects with the signal's reason
(`throwIfAborted` throws it). -/
def raceAbortSignalModel {T : Type} (first : RaceFirst T) : RaceOutcome T :=
  match first with
  | RaceFirst.resolves v => { result := Settle.resolved v, listenerRemoved := true }
  | RaceFirst.rejects e => { result := Settle.rejected e, listenerRemoved := false }
  | RaceFirst.aborts r => { result := Settle.rejected r, listenerRemoved := true }

/- ### delay

Source of the executor body:
```
const timeoutId = setTimeout(() => { ... resolve(); }, timeout);
if (signal) {
  if (signal.aborted) {
    try { signal.throwIfAborted(); } catch (err) { reject(err); }
  }
  onAbort = () => { clearTimeout(timeoutId); ...; reject(err); };
  signal.addEventListener('abort', onAbort);
}
```
The embedding captures the synchronous part of the call: `setTimeout` is
invoked unconditionally before the aborted check, then an already-aborted
signal causes an immediate rejection with its reason, and the abort listener
is added whenever a signal is present. -/

/-- State established by the synchronous part of a `delay(timeout, {signal})`
call: whether a timer was scheduled, the settlement (if any) performed during
the call itself, and whether an abort listener was registered on the
signal. -/
structure DelayCall where
  timerScheduled : Bool
  immediateResult : Option (Settle Nat Unit)
  abortListenerAdded : Bool
deriving DecidableEq, Repr

/-- Embedding of the synchronous executor of `delay`. -/
def delayCall (timeout : Nat) (signal : Option Sig) : DelayCall :=
  { timerScheduled := true
    immediateResult :=
      match signal with
      | none => none
      | some s => if s.aborted then some (Settle.rejected s.reason) else none
    abortListenerAdded := signal.isSome }

/- ### AbortScope

Source:
```
constructor(parentSignal) {
  this.controller = new AbortController();
  if (parentSignal) {
    this.parentSignal = undefined;
    this.onAbort = () => this.controller.abort();
    parentSignal.addEventListener('abort', this.onAbort);
  }
}
[Symbol.dispose]() {
  this.controller.abort();
  if (this.parentSignal && this.onAbort) {
    this.parentSignal.removeEventListener('abort', this.onAbort);
  }
}
```
Note that the constructor stores `undefined` into `this.parentSignal` (it does
not store the argument), and that it registers a listener on the parent signal
without checking `parentSignal.aborted`; per DOM semantics, the `abort` event
of a signal that is already aborted has fired already and the newly added
listener is never invoked. -/

/-- State of an `AbortScope` together with its registration on the parent
signal: `childAborted` is `controller.signal.aborted`;
`parentListenerCount` counts this scope's `onAbort` registrations currently
held by the parent signal; `parentSignalField` is the stored
`this.parentSignal`; `onAbortSet` is whether `this.onAbort` is defined. -/
structure ScopeState where
  childAborted : Bool
  parentListenerCount : Nat
  parentSignalField : Option Sig
  onAbortSet : Bool
deriving DecidableEq, Repr

/-- Embedding of the `AbortScope` constructor.  With a parent present, the
code assigns `undefined` to `this.parentSignal` and registers `onAbort` on the
parent; the child controller starts non-aborted and, when the parent is
already aborted, no `abort` event will ever fire for the new listener, so the
child stays non-aborted. -/
def abortScopeNew (parent : Option Sig) : ScopeState :=
  match parent with
  | none =>
    { childAborted := false, parentListenerCount := 0
      parentSignalField := none, onAbortSet := false }
  | some _ =>
    { childAborted := false, parentListenerCount := 1
      parentSignalField := none, onAbortSet := true }

/-- Embedding of `AbortScope[Symbol.dispose]` (also reached via `abort()`):
aborts the own controller, and removes the parent listener only when the
stored `parentSignal` field is defined and `onAbort` is set. -/
def scopeDispose (st : ScopeState) : ScopeState :=
  let st1 := { st with childAborted := true }
  match st.parentSignalField, st.onAbortSet with
  | some _, true => { st1 with parentListenerCount := st1.parentListenerCount - 1 }
  | _, _ => st1

/-- Delivery of the parent signal's `abort` event to the scope: every
registration of the scope's `onAbort` on the parent aborts the child
controller.  The event fires only at the parent's transition to aborted,
never for a listener added after that transition. -/
def parentAbortFires (st : ScopeState) : ScopeState :=
  if st.parentListenerCount > 0 then { st with childAborted := true } else st

/- ### AsyncLock

Source:
```
acquire() {
  let item; const promise = new Promise((resolve, reject) => { item = {resolve, reject, token: {release: () => this.release(item)}}; });
  if (this.active) { this.active.next = item; } else { this.active = item; this.activate(); }
  return promise;
}
private release(item) { if (this.active === item) { this.active = this.active.next; this.activate(); } return Promise.resolve(); }
private activate() { if (this.active) { this.active.resolve(this.active.token); } }
dispose() { let item = this.active; while (item) { item.reject(new Error('AsyncLock is disposed')); item = item.next; } }
```
Items are identified by their acquire order (0, 1, 2, ...).  The chain of
items reachable from `active` through `next` pointers is embedded as
`chain : List Nat`.  Note `this.active.next = item` overwrites the active
item's `next` pointer, discarding any item previously stored there.  Promise
`resolve`/`reject` are no-ops once the promise is settled; the per-item
promise states are kept in a list indexed by item id, and `grantLog` records
the order in which pending promises are resolved with the lock token. -/

/-- Settlement state of a single `acquire()` promise. -/
inductive PState where
  | pendingP
  | granted
  | disposedRejected
deriving DecidableEq, Repr

/-- State of an `AsyncLock` together with the promises it has handed out:
`chain` lists the item ids reachable from `active` via `next`, `promises`
maps each item id (its index) to its promise state, and `grantLog` is the
order in which items were granted the lock. -/
structure LockState where
  chain : List Nat
  promises : List PState
  grantLog : List Nat
deriving DecidableEq, Repr

/-- Resolving item `i`'s promise with its token: a no-op unless the promise
is still pending (JavaScript promises settle at most once). -/
def resolveItem (st : LockState) (i : Nat) : LockState :=
  if st.promises.getD i PState.granted = PState.pendingP then
    { st with promises := st.promises.set i PState.granted
              grantLog := st.grantLog ++ [i] }
  else st

/-- Rejecting item `i`'s promise with the disposal error: a no-op unless the
promise is still pending. -/
def rejectItem (st : LockState) (i : Nat) : LockState :=
  if st.promises.getD i PState.granted = PState.pendingP then
    { st with promises := st.promises.set i PState.disposedRejected }
  else st

/-- Embedding of `AsyncLock.acquire`: a fresh pending item is created; if a
holder is active its `next` pointer is overwritten with the new item
(`this.active.next = item`), otherwise the item becomes active and is
granted immediately (`activate`). -/
def acquire (st : LockState) : LockState :=
  let i := st.promises.length
  let st1 := { st with promises := st.promises ++ [PState.pendingP] }
  match st1.chain with
  | [] => resolveItem { st1 with chain := [i] } i
  | a :: _ => { st1 with chain := [a, i] }

/-- Embedding of `AsyncLock.release` as invoked by item `i`'s token: only
when `i` is the active item does the queue advance, granting the next item
if any (`activate`). -/
def release (st : LockState) (i : Nat) : LockState :=
  match st.chain with
  | [] => st
  | a :: rest =>
    if a = i then
      let st1 := { st with chain := rest }
      match rest with
      | [] => st1
      | h :: _ => resolveItem st1 h
    else st

/-- Embedding of `AsyncLock.dispose`: walks the chain from `active` through
`next` pointers, rejecting each item's promise (a no-op on the already
granted holder). -/
def dispose (st : LockState) : LockState :=
  st.chain.foldl rejectItem st

/-- Script of externally triggered lock operations. -/
inductive LockOp where
  | acquireOp
  | releaseOp (i : Nat)
  | disposeOp
deriving DecidableEq, Repr

/-- Run a script of lock operations from the fresh lock state. -/
def runOps (ops : List LockOp) : LockState :=
  ops.foldl
    (fun st op =>
      match op with
      | LockOp.acquireOp => acquire st
      | LockOp.releaseOp i => release st i
      | LockOp.disposeOp => dispose st)
    { chain := [], promises := [], grantLog := [] }

/- ### KeyedObserver

Source (`src/coreUtils/keyedObserver.ts`):
```
observe(keys) {
  if (keys.length === 0 && this.observedKeys.size === 0) { return; }
  const newObservedKeys = new Map();
  for (const key of keys) {
    if (newObservedKeys.has(key)) { continue; }
    let unsubscribe = this.observedKeys.get(key);
    if (!unsubscribe) { unsubscribe = this.subscribe(key); }
    if (unsubscribe) { newObservedKeys.set(key, unsubscribe); }
  }
  this.observedKeys.forEach((unsubscribe, key) => {
    if (!newObservedKeys.has(key)) { unsubscribe(); }
  });
  this.observedKeys = newObservedKeys;
}
```
Keys are embedded as `Nat`, unsubscribe capabilities as `Nat` identifiers, the
`subscribe` callback as a function `Nat → Option Nat`, and the `Map` of
observed keys as an insertion-ordered association list with unique keys.
The embedding additionally records every `subscribe` call (by key) and every
unsubscribe invocation (by capability), in call order. -/

/-- Association lookup for the insertion-ordered map embedding of a JS `Map`
(first match; the maps built by `observe` have unique keys). -/
def assoc (k : Nat) : List (Nat × Nat) → Option Nat
  | [] => none
  | p :: rest => if p.1 = k then some p.2 else assoc k rest

/-- Outcome of one `observe` call: the new tracked map, the keys passed to
`subscribe` in call order, and the unsubscribe capabilities invoked in call
order. -/
structure ObserveResult where
  tracked : List (Nat × Nat)
  subCalls : List Nat
  unsubCalls : List Nat
deriving DecidableEq, Repr

/-- The `for (const key of keys)` loop of `observe`: `acc` is
`newObservedKeys`, `subs` the log of `subscribe` calls so far. -/
def observeGo (f : Nat → Option Nat) (old : List (Nat × Nat)) :
    List Nat → List (Nat × Nat) → List Nat → List (Nat × Nat) × List Nat
  | [], acc, subs => (acc, subs)
  | k :: rest, acc, subs =>
    if (assoc k acc).isSome then
      observeGo f old rest acc subs
    else
      match assoc k old with
      | some u => observeGo f old rest (acc ++ [(k, u)]) subs
      | none =>
        match f k with
        | some u => observeGo f old rest (acc ++ [(k, u)]) (subs ++ [k])
        | none => observeGo f old rest acc (subs ++ [k])

/-- Embedding of `KeyedObserver.observe` from tracked state `old` with input
key list `keys`, including the degenerate-case early return. -/
def observe (f : Nat → Option Nat) (old : List (Nat × Nat)) (keys : List Nat) :
    ObserveResult :=
  if keys.isEmpty && old.isEmpty then
    { tracked := old, subCalls := [], unsubCalls := [] }
  else
    let go := observeGo f old keys [] []
    { tracked := go.1
      subCalls := go.2
      unsubCalls := (old.filter (fun p => (assoc p.1 go.1).isNone)).map Prod.snd }

/-- Number of occurrences of a key in a list (call count in a log). -/
def occ (k : Nat) : List Nat → Nat
  | [] => 0
  | x :: rest => (if x = k then 1 else 0) + occ k rest

/- ### raceHappyEyes

Source:
```
const scope = new AbortScope(parentSignal);
const {signal} = scope;
try {
  const attempts = new Map();
  let previous;
  for (const variant of variants) {
    signal.throwIfAborted();
    attempts.set(variant, makeAttempt(variant, signal).then(
      (result) => ({type: 'resolve', result}),
      () => ({type: 'reject', variant})
    ));
    const wait = delay(timeout, {signal}).then(() => ({type: 'timeout'}));
    waitForEvent: while (attempts.size > 0) {
      const raced = await Promise.race([...attempts.values(), wait]);
      switch (raced.type) {
        case 'resolve': return raced.result;
        case 'reject':
          attempts.delete(raced.variant);
          if (raced.variant === previous) { break waitForEvent; }
          break;
        case 'timeout': break waitForEvent;
      }
    }
    previous = variant;
  }
} finally { scope.abort(); }
throw new Error('No variants left to attempt');
```
The execution is embedded as a deterministic discrete-event simulation over
virtual time (Nat milliseconds, no parent signal).  Each candidate's attempt
behaviour is given up front: it settles a fixed duration after being started
(successfully with a value, or failing), or never settles.  In-flight attempts
are kept in insertion order (as in the JS `Map`); `Promise.race` settles on
the earliest event, with the in-flight attempts winning ties against the
stagger timer because they precede `wait` in the raced array, and
earlier-inserted attempts winning ties among themselves. -/

/-- Behaviour of one candidate's attempt, relative to its start time. -/
inductive Behavior where
  | succeeds (d : Nat) (value : Nat)
  | fails (d : Nat)
  | pendingB
deriving DecidableEq, Repr

/-- An in-flight attempt: the candidate index and its settlement event, if
any, as an absolute time paired with `some value` (success) or `none`
(failure). -/
structure Flight where
  idx : Nat
  event : Option (Nat × Option Nat)
deriving DecidableEq, Repr

/-- Earliest-settling in-flight attempt, earliest-inserted winning ties;
`none` when no in-flight attempt ever settles. -/
def minFlight : List Flight → Option Flight
  | [] => none
  | f :: rest =>
    match f.event, minFlight rest with
    | none, r => r
    | some _, none => some f
    | some p, some g =>
      match g.event with
      | some q => if p.1 ≤ q.1 then some f else some g
      | none => some f

/-- Remove the attempt for candidate `i` from the in-flight list
(`attempts.delete`). -/
def removeFlight (i : Nat) (fl : List Flight) : List Flight :=
  fl.filter (fun f => f.idx ≠ i)

/-- Result of the inner `waitForEvent` loop: the overall operation resolves,
or the loop exits at a time with the remaining in-flight attempts. -/
inductive InnerRes where
  | resolvedR (t : Nat) (v : Nat)
  | exitR (t : Nat) (fl : List Flight)
deriving DecidableEq, Repr

/-- Embedding of the `waitForEvent` loop for one outer iteration: `deadline`
is the absolute time at which this iteration's stagger timer fires,
`previous` the candidate of the preceding outer iteration, `t` the current
time and `fl` the in-flight attempts.  The race settles on the earliest
pending event; a settlement at the deadline beats the timer.  `fuel` bounds
the recursion; every non-exiting step removes one in-flight attempt, so any
`fuel ≥ fl.length` is exact. -/
def innerLoop (deadline : Nat) (previous : Option Nat) :
    Nat → Nat → List Flight → InnerRes
  | 0, t, fl => InnerRes.exitR t fl
  | _ + 1, t, [] => InnerRes.exitR t []
  | fuel + 1, t, fl =>
    match minFlight fl with
    | none => InnerRes.exitR deadline fl
    | some f =>
      match f.event with
      | none => InnerRes.exitR deadline fl
      | some p =>
        if p.1 ≤ deadline then
          match p.2 with
          | some v => InnerRes.resolvedR p.1 v
          | none =>
            if some f.idx = previous then InnerRes.exitR p.1 (removeFlight f.idx fl)
            else innerLoop deadline previous fuel p.1 (removeFlight f.idx fl)
        else InnerRes.exitR deadline fl

/-- Overall outcome of a `raceHappyEyes` run: resolution with the first
successful attempt's value, or the final `No variants left to attempt`
rejection; both carry the time of settlement, the rejection also the
candidates whose attempts were still in flight (unsettled) at that moment,
and both the log of `(candidate, startTime)` pairs in start order. -/
inductive RunResult where
  | resolvedAt (t : Nat) (v : Nat) (starts : List (Nat × Nat))
  | exhausted (t : Nat) (pendingIdx : List Nat) (starts : List (Nat × Nat))
deriving DecidableEq, Repr

/-- Mutable state threaded through the outer `for (const variant of
variants)` loop. -/
structure RunState where
  t : Nat
  fl : List Flight
  starts : List (Nat × Nat)
  previous : Option Nat
deriving DecidableEq, Repr

/-- The absolute settlement event of a behaviour started at time `t`. -/
def eventOf (t : Nat) : Behavior → Option (Nat × Option Nat)
  | Behavior.succeeds d v => some (t + d, some v)
  | Behavior.fails d => some (t + d, none)
  | Behavior.pendingB => none

/-- Embedding of the outer loop of `raceHappyEyes` over the indexed
candidate list: start the candidate's attempt, run the `waitForEvent` loop,
and either return the resolution or continue with the remaining in-flight
attempts; falling off the end throws the exhaustion error while the listed
attempts are still in flight. -/
def runHE (T : Nat) : List (Nat × Behavior) → RunState → RunResult
  | [], st => RunResult.exhausted st.t (st.fl.map Flight.idx) st.starts
  | (i, b) :: rest, st =>
    match innerLoop (st.t + T) st.previous
        ((st.fl ++ [({ idx := i, event := eventOf st.t b } : Flight)]).length + 1) st.t
        (st.fl ++ [({ idx := i, event := eventOf st.t b } : Flight)]) with
    | InnerRes.resolvedR te v => RunResult.resolvedAt te v (st.starts ++ [(i, st.t)])
    | InnerRes.exitR te fl2 =>
      runHE T rest
        { t := te, fl := fl2, starts := st.starts ++ [(i, st.t)], previous := some i }

/-- Embedding of a `raceHappyEyes(variants, makeAttempt, {timeout})` call
without a parent signal: candidates are indexed in list order and behave as
given. -/
def raceHappyEyes (T : Nat) (behaviors : List Behavior) : RunResult :=
  runHE T behaviors.enum { t := 0, fl := [], starts := [], previous := none }

/-- Start log of a run. -/
def startsOf : RunResult → List (Nat × Nat)
  | RunResult.resolvedAt _ _ s => s
  | RunResult.exhausted _ _ s => s

/-- Adjacent-pair discipline of a start log: each next start is no earlier
than the previous one and no later than the previous start plus the stagger
timeout. -/
def staggerOkB (T : Nat) : List (Nat × Nat) → Bool
  | [] => true
  | [_] => true
  | a :: b :: rest =>
    decide (a.2 ≤ b.2) && decide (b.2 ≤ a.2 + T) && staggerOkB T (b :: rest)

/-- Start log in which candidate `i` starts at time `t` and each following
candidate starts exactly at the preceding candidate's failure time (start
time plus failure duration). -/
def cumStartsFrom (i t : Nat) : List Nat → List (Nat × Nat)
  | [] => []
  | d :: rest => (i, t) :: cumStartsFrom (i + 1) (t + d) rest

/-- Start log of a run in which every candidate fails immediately before the
stagger: cumulative failure times from candidate 0 at time 0. -/
def cumStarts (ds : List Nat) : List (Nat × Nat) := cumStartsFrom 0 0 ds

/-- Every settlement event of the in-flight attempts lies at or after time
`t` (no event is in the past). -/
def FlightsLB (t : Nat) (fl : List Flight) : Prop :=
  ∀ f ∈ fl, ∀ p : Nat × Option Nat, f.event = some p → t ≤ p.1

/-- The last recorded start (if any) happened at or before time `t` and at
most the stagger timeout before `t`. -/
def lastTimeOk (T t : Nat) (l : List (Nat × Nat)) : Prop :=
  ∀ p ∈ l.getLast?, p.2 ≤ t ∧ t ≤ p.2 + T

/-! ## Theorems -/

/-- Occurrence counts add over list concatenation. -/
theorem occ_append (k : Nat) (xs ys : List Nat) :
    occ k (xs ++ ys) = occ k xs + occ k ys := by
  induction xs with
  | nil => simp [occ]
  | cons x xs ih => simp [occ, ih, Nat.add_assoc]

/-- Association lookup over a concatenation tries the left list first. -/
theorem assoc_append (k : Nat) (xs ys : List (Nat × Nat)) :
    assoc k (xs ++ ys)
      = (match assoc k xs with | some v => some v | none => assoc k ys) := by
  induction xs with
  | nil => simp [assoc]
  | cons p xs ih =>
    by_cases h : p.1 = k
    · simp [assoc, h]
    · simp [assoc, h, ih]

/-- A pair present in an association list makes the lookup of its key
succeed. -/
theorem mem_assoc_isSome (k u : Nat) (l : List (Nat × Nat)) (h : (k, u) ∈ l) :
    (assoc k l).isSome = true := by
  induction l with
  | nil => cases h
  | cons p rest ih =>
    rcases List.mem_cons.mp h with h1 | h2
    · rw [← h1]; simp [assoc]
    · by_cases hp : p.1 = k <;> simp [assoc, hp, ih h2]

/-- Keys already tracked never cause a `subscribe` call in the key loop. -/
theorem observeGo_sub_old (f : Nat → Option Nat) (old : List (Nat × Nat)) (k u : Nat)
    (hold : assoc k old = some u) :
    ∀ ks acc subs, occ k (observeGo f old ks acc subs).2 = occ k subs := by
  intro ks
  induction ks with
  | nil => intro acc subs; simp [observeGo]
  | cons x rest ih =>
    intro acc subs
    simp only [observeGo]
    by_cases hacc : (assoc x acc).isSome = true
    · simp [hacc, ih]
    · simp only [hacc]
      cases holdx : assoc x old with
      | some u2 => simp [ih]
      | none =>
        have hx : x ≠ k := by
          intro h
          rw [h] at holdx
          rw [holdx] at hold
          cases hold
        cases hf : f x with
        | some u3 => simp [hf, ih, occ_append, occ, hx]
        | none => simp [hf, ih, occ_append, occ, hx]

/-- An untracked key whose `subscribe` yields a capability is passed to
`subscribe` exactly once over the key loop — on its first occurrence, after
which it is in the accumulated map and skipped. -/
theorem observeGo_sub_some (f : Nat → Option Nat) (old : List (Nat × Nat)) (k u : Nat)
    (hold : assoc k old = none) (hf : f k = some u) :
    ∀ ks acc subs, occ k (observeGo f old ks acc subs).2
      = occ k subs + (if (assoc k acc).isSome = true then 0
          else if k ∈ ks then 1 else 0) := by
  intro ks
  induction ks with
  | nil => intro acc subs; simp [observeGo]
  | cons x rest ih =>
    intro acc subs
    simp only [observeGo]
    by_cases hx : x = k
    · subst hx
      by_cases hacc : (assoc x acc).isSome = true
      · simp [hacc, ih]
      · simp only [hacc, if_false, Bool.false_eq_true]
        rw [hold, hf]
        rw [ih (acc ++ [(x, u)]) (subs ++ [x])]
        have hsome : (assoc x (acc ++ [(x, u)])).isSome = true := by
          rw [assoc_append]
          cases h2 : assoc x acc with
          | some v => simp [h2] at hacc
          | none => simp [assoc]
        rw [hsome]
        simp [occ_append, occ]
    · have hkx : ¬k = x := fun h => hx h.symm
      by_cases hacc : (assoc x acc).isSome = true
      · rw [if_pos hacc, ih acc subs]
        simp [List.mem_cons, hkx]
      · simp only [hacc, if_false, Bool.false_eq_true]
        have hmem : (k ∈ x :: rest) = (k ∈ rest) := by
          simp [List.mem_cons, hkx]
        cases holdx : assoc x old with
        | some u2 =>
          rw [ih (acc ++ [(x, u2)]) subs]
          rw [assoc_append]
          cases h2 : assoc k acc with
          | some v => simp [hmem]
          | none => simp [assoc, hx, hmem]
        | none =>
          cases hfx : f x with
          | some u3 =>
            rw [ih (acc ++ [(x, u3)]) (subs ++ [x])]
            rw [assoc_append]
            cases h2 : assoc k acc with
            | some v => simp [occ_append, occ, hx, hmem]
            | none => simp [assoc, hx, occ_append, occ, hmem]
          | none =>
            rw [ih acc (subs ++ [x])]
            simp [occ_append, occ, hx, hmem]

/-- An untracked key for which `subscribe` yields nothing is passed to
`subscribe` once per occurrence in the input — it never enters the
accumulated map, so duplicates are not skipped. -/
theorem observeGo_sub_none (f : Nat → Option Nat) (old : List (Nat × Nat)) (k : Nat)
    (hold : assoc k old = none) (hf : f k = none) :
    ∀ ks acc subs, assoc k acc = none →
      occ k (observeGo f old ks acc subs).2 = occ k subs + occ k ks := by
  intro ks
  induction ks with
  | nil => intro acc subs _; simp [observeGo, occ]
  | cons x rest ih =>
    intro acc subs hacc
    simp only [observeGo]
    by_cases hx : x = k
    · subst hx
      rw [hacc]
      simp only [Option.isSome_none, Bool.false_eq_true, if_false]
      rw [hold, hf]
      rw [ih acc (subs ++ [x]) hacc]
      simp only [occ_append, occ]
      omega
    · have hkx : ¬k = x := fun h => hx h.symm
      have hmem : occ k (x :: rest) = occ k rest := by simp [occ, hkx, hx]
      by_cases haccx : (assoc x acc).isSome = true
      · rw [if_pos haccx, ih acc subs hacc, hmem]
      · simp only [haccx, Bool.false_eq_true, if_false]
        cases holdx : assoc x old with
        | some u2 =>
          have hacc2 : assoc k (acc ++ [(x, u2)]) = none := by
            rw [assoc_append, hacc]; simp [assoc, hx]
          rw [ih (acc ++ [(x, u2)]) subs hacc2, hmem]
        | none =>
          cases hfx : f x with
          | some u3 =>
            have hacc2 : assoc k (acc ++ [(x, u3)]) = none := by
              rw [assoc_append, hacc]; simp [assoc, hx]
            rw [ih (acc ++ [(x, u3)]) (subs ++ [x]) hacc2, hmem]
            simp [occ_append, occ, hkx, hx]
          | none =>
            rw [ih acc (subs ++ [x]) hacc, hmem]
            simp [occ_append, occ, hkx, hx]

/-- Membership in the map built by the key loop: a key is present exactly
when it was already in the accumulator or it occurs in the remaining input
and either was tracked before or `subscribe` yields a capability for it. -/
theorem observeGo_acc_isSome (f : Nat → Option Nat) (old : List (Nat × Nat)) (k : Nat) :
    ∀ ks acc subs, (assoc k (observeGo f old ks acc subs).1).isSome = true
      ↔ ((assoc k acc).isSome = true
          ∨ (k ∈ ks ∧ ((assoc k old).isSome = true ∨ (f k).isSome = true))) := by
  intro ks
  induction ks with
  | nil => intro acc subs; simp [observeGo]
  | cons x rest ih =>
    intro acc subs
    simp only [observeGo]
    by_cases hx : x = k
    · subst hx
      by_cases hacc : (assoc x acc).isSome = true
      · rw [if_pos hacc, ih acc subs]
        simp [hacc]
      · simp only [hacc, Bool.false_eq_true, if_false]
        cases holdx : assoc x old with
        | some u2 =>
          rw [ih (acc ++ [(x, u2)]) subs]
          have h2 : (assoc x (acc ++ [(x, u2)])).isSome = true := by
            rw [assoc_append]
            cases h3 : assoc x acc with
            | some v => simp [h3] at hacc
            | none => simp [assoc]
          simp [h2, holdx]
        | none =>
          cases hfx : f x with
          | some u3 =>
            rw [ih (acc ++ [(x, u3)]) (subs ++ [x])]
            have h2 : (assoc x (acc ++ [(x, u3)])).isSome = true := by
              rw [assoc_append]
              cases h3 : assoc x acc with
              | some v => simp [h3] at hacc
              | none => simp [assoc]
            simp [h2, hfx]
          | none =>
            rw [ih acc (subs ++ [x])]
            simp [hacc, holdx, hfx]
    · have hkx : ¬k = x := fun h => hx h.symm
      have hmem : (k ∈ x :: rest) ↔ (k ∈ rest) := by simp [List.mem_cons, hkx]
      by_cases hacc : (assoc x acc).isSome = true
      · rw [if_pos hacc, ih acc subs]
        simp [hmem]
      · simp only [hacc, Bool.false_eq_true, if_false]
        cases holdx : assoc x old with
        | some u2 =>
          rw [ih (acc ++ [(x, u2)]) subs]
          have h2 : assoc k (acc ++ [(x, u2)]) = assoc k acc := by
            rw [assoc_append]
            cases h3 : assoc k acc with
            | some v => simp
            | none => simp [assoc, hx]
          rw [h2]
          simp [hmem]
        | none =>
          cases hfx : f x with
          | some u3 =>
            rw [ih (acc ++ [(x, u3)]) (subs ++ [x])]
            have h2 : assoc k (acc ++ [(x, u3)]) = assoc k acc := by
              rw [assoc_append]
              cases h3 : assoc k acc with
              | some v => simp
              | none => simp [assoc, hx]
            rw [h2]
            simp [hmem]
          | none =>
            rw [ih acc (subs ++ [x])]
            simp [hmem]

/-- C9 (amended): the call `observe(ks)` from tracked state `old` invokes
`subscribe` exactly once for each distinct key of `ks` not tracked in `old`
for which `subscribe` yields a capability, and never for a tracked key; for
an untracked key for which `subscribe` yields nothing, `subscribe` is
invoked once per occurrence of the key in `ks`; and the stored unsubscribe
capabilities invoked are exactly those of the tracked keys absent from
`ks`, in tracking order — in particular none for keys tracked and kept. -/
theorem keyedObserver_reconcile (f : Nat → Option Nat) (old : List (Nat × Nat))
    (ks : List Nat) :
    (∀ k u, assoc k old = some u → occ k (observe f old ks).subCalls = 0)
    ∧ (∀ k u, assoc k old = none → f k = some u →
        occ k (observe f old ks).subCalls = if k ∈ ks then 1 else 0)
    ∧ (∀ k, assoc k old = none → f k = none →
        occ k (observe f old ks).subCalls = occ k ks)
    ∧ (observe f old ks).unsubCalls
        = (old.filter (fun p => decide (p.1 ∉ ks))).map Prod.snd := by
  by_cases hdeg : (ks.isEmpty && old.isEmpty) = true
  · have hks : ks = [] := List.isEmpty_iff.mp (Bool.and_elim_left hdeg)
    have hold : old = [] := List.isEmpty_iff.mp (Bool.and_elim_right hdeg)
    subst hks; subst hold
    refine ⟨?_, ?_, ?_, ?_⟩ <;> simp [observe, occ]
  · have hobs : observe f old ks
        = { tracked := (observeGo f old ks [] []).1
            subCalls := (observeGo f old ks [] []).2
            unsubCalls := (old.filter
              (fun p => (assoc p.1 (observeGo f old ks [] []).1).isNone)).map Prod.snd } := by
      simp [observe, hdeg]
    refine ⟨?_, ?_, ?_, ?_⟩
    · intro k u hk
      rw [hobs]
      exact (observeGo_sub_old f old k u hk ks [] []).trans (by simp [occ])
    · intro k u hk hf
      rw [hobs]
      have h := observeGo_sub_some f old k u hk hf ks [] []
      simpa [occ, assoc] using h
    · intro k hk hf
      rw [hobs]
      have h := observeGo_sub_none f old k hk hf ks [] [] (by simp [assoc])
      simpa [occ] using h
    · rw [hobs]
      have hfilter : old.filter
            (fun p => (assoc p.1 (observeGo f old ks [] []).1).isNone)
          = old.filter (fun p => decide (p.1 ∉ ks)) := by
        apply List.filter_congr
        intro p hp
        have hps : (assoc p.1 old).isSome = true :=
          mem_assoc_isSome p.1 p.2 old (by simpa using hp)
        have hiff := observeGo_acc_isSome f old p.1 ks [] []
        by_cases hkin : p.1 ∈ ks
        · have hsome : (assoc p.1 (observeGo f old ks [] []).1).isSome = true := by
            rw [hiff]
            exact Or.inr ⟨hkin, Or.inl hps⟩
          simp [Option.isNone_iff_eq_none, hkin]
          cases h4 : assoc p.1 (observeGo f old ks [] []).1 with
          | some v => simp
          | none => rw [h4] at hsome; simp at hsome
        · have hnone : ¬(assoc p.1 (observeGo f old ks [] []).1).isSome = true := by
            rw [hiff]
            push_neg
            refine ⟨by simp [assoc], ?_⟩
            intro hc
            exact absurd hc hkin
          simp [Option.isNone_iff_eq_none, hkin]
          cases h4 : assoc p.1 (observeGo f old ks [] []).1 with
          | some v => rw [h4] at hnone; simp at hnone
          | none => simp
      rw [hfilter]

/-- C9 (witness): for the spec's example — tracked keys {1, 2}, second call
observing [2, 3], subscribe always yielding a capability — key 2 causes no
subscribe call, key 3 exactly one, and exactly key 1's stored capability is
unsubscribed. -/
theorem keyedObserver_reconcile_witness :
    occ 2 (observe (fun k => some (k + 100)) [(1, 101), (2, 102)] [2, 3]).subCalls = 0
    ∧ occ 3 (observe (fun k => some (k + 100)) [(1, 101), (2, 102)] [2, 3]).subCalls = 1
    ∧ (observe (fun k => some (k + 100)) [(1, 101), (2, 102)] [2, 3]).unsubCalls
        = [101] := by
  refine ⟨?_, ?_, ?_⟩
  · exact (keyedObserver_reconcile (fun k => some (k + 100)) [(1, 101), (2, 102)]
      [2, 3]).1 2 102 (by simp [assoc])
  · have h := (keyedObserver_reconcile (fun k => some (k + 100)) [(1, 101), (2, 102)]
      [2, 3]).2.1 3 103 (by simp [assoc]) rfl
    simpa using h
  · have h := (keyedObserver_reconcile (fun k => some (k + 100)) [(1, 101), (2, 102)]
      [2, 3]).2.2.2
    simpa using h

/-- A race with no settling attempt: every in-flight attempt is pending. -/
theorem minFlight_none (fl : List Flight) (h : minFlight fl = none) :
    ∀ g ∈ fl, g.event = none := by
  induction fl with
  | nil => intro g hg; cases hg
  | cons x rest ih =>
    intro g hg
    simp only [minFlight] at h
    split at h
    · next hx =>
      rcases List.mem_cons.mp hg with rfl | hg2
      · exact hx
      · exact ih h g hg2
    · cases h
    · split at h
      · split at h <;> cases h
      · cases h

/-- Specification of `minFlight`: the returned attempt is in flight, has a
settlement event, and that event's time is minimal among all in-flight
settlement events. -/
theorem minFlight_spec (fl : List Flight) :
    ∀ f, minFlight fl = some f →
      f ∈ fl ∧ ∃ p : Nat × Option Nat, f.event = some p
        ∧ ∀ g ∈ fl, ∀ q : Nat × Option Nat, g.event = some q → p.1 ≤ q.1 := by
  induction fl with
  | nil => intro f h; cases h
  | cons x rest ih =>
    intro f h
    simp only [minFlight] at h
    split at h
    · next hx =>
      obtain ⟨hmem, p, hp, hmin⟩ := ih f h
      refine ⟨List.mem_cons_of_mem _ hmem, p, hp, ?_⟩
      intro g hg q hq
      rcases List.mem_cons.mp hg with rfl | hg2
      · rw [hx] at hq; cases hq
      · exact hmin g hg2 q hq
    · next w hx hr =>
      cases h
      refine ⟨List.mem_cons_self _ _, w, hx, ?_⟩
      intro g hg q hq
      rcases List.mem_cons.mp hg with rfl | hg2
      · rw [hx] at hq; cases hq; exact Nat.le_refl _
      · rw [minFlight_none rest hr g hg2] at hq; cases hq
    · next p g0 hx hr =>
      obtain ⟨hmem0, q0, hq0, hmin0⟩ := ih g0 hr
      split at h
      · next q heq =>
        rw [hq0] at heq
        cases heq
        by_cases hle : p.1 ≤ q0.1
        · rw [if_pos hle] at h
          cases h
          refine ⟨List.mem_cons_self _ _, p, hx, ?_⟩
          intro g hg q hq
          rcases List.mem_cons.mp hg with rfl | hg2
          · rw [hx] at hq; cases hq; exact Nat.le_refl _
          · exact Nat.le_trans hle (hmin0 g hg2 q hq)
        · rw [if_neg hle] at h
          cases h
          refine ⟨List.mem_cons_of_mem _ hmem0, q0, hq0, ?_⟩
          intro g hg q hq
          rcases List.mem_cons.mp hg with rfl | hg2
          · rw [hx] at hq; cases hq
            exact Nat.le_of_lt (Nat.lt_of_not_le hle)
          · exact hmin0 g hg2 q hq
      · next heq =>
        rw [hq0] at heq
        cases heq

/-- Attempts that survive `attempts.delete` were in flight before. -/
theorem removeFlight_subset (i : Nat) (fl : List Flight) (g : Flight)
    (h : g ∈ removeFlight i fl) : g ∈ fl := by
  exact List.mem_of_mem_filter h

/-- Invariant of the `waitForEvent` loop: started at a time before the
stagger deadline with no in-flight settlement event in the past, an exit of
the loop happens between the entry time and the deadline, and the remaining
in-flight attempts have no settlement event before the exit time. -/
theorem innerLoop_exit_inv (deadline : Nat) (prev : Option Nat) :
    ∀ (fuel t : Nat) (fl : List Flight) (te : Nat) (fl2 : List Flight),
      t ≤ deadline → FlightsLB t fl →
      innerLoop deadline prev fuel t fl = InnerRes.exitR te fl2 →
      t ≤ te ∧ te ≤ deadline ∧ FlightsLB te fl2 := by
  intro fuel
  induction fuel with
  | zero =>
    intro t fl te fl2 ht hlb h
    cases h
    exact ⟨Nat.le_refl _, ht, hlb⟩
  | succ n ih =>
    intro t fl te fl2 ht hlb h
    cases fl with
    | nil =>
      cases h
      exact ⟨Nat.le_refl _, ht, hlb⟩
    | cons x xs =>
      simp only [innerLoop] at h
      split at h
      · next hmin =>
        cases h
        refine ⟨ht, Nat.le_refl _, ?_⟩
        intro g hg q hq
        rw [minFlight_none _ hmin g hg] at hq; cases hq
      · next f hmin =>
        obtain ⟨hmem, p0, hp0, hpmin⟩ := minFlight_spec _ f hmin
        split at h
        · next hev =>
          rw [hev] at hp0; cases hp0
        · next p hev =>
          rw [hev] at hp0
          have hpeq : p = p0 := Option.some.inj hp0
          subst hpeq
          by_cases hts : p.1 ≤ deadline
          · rw [if_pos hts] at h
            split at h
            · cases h
            · next hout =>
              have htts : t ≤ p.1 := hlb f hmem p hev
              by_cases hprev : some f.idx = prev
              · rw [if_pos hprev] at h
                cases h
                refine ⟨htts, hts, ?_⟩
                intro g hg q hq
                exact hpmin g (removeFlight_subset _ _ g hg) q hq
              · rw [if_neg hprev] at h
                have hrec := ih p.1 (removeFlight f.idx (x :: xs)) te fl2 hts
                  (fun g hg q hq => hpmin g (removeFlight_subset _ _ g hg) q hq) h
                exact ⟨Nat.le_trans htts hrec.1, hrec.2.1, hrec.2.2⟩
          · rw [if_neg hts] at h
            cases h
            refine ⟨ht, Nat.le_refl _, ?_⟩
            intro g hg q hq
            exact Nat.le_trans (Nat.le_of_not_le hts) (hpmin g hg q hq)

/-- Appending a start that respects the stagger bound relative to the last
recorded start preserves the adjacent-pair discipline. -/
theorem staggerOk_snoc (T : Nat) :
    ∀ (l : List (Nat × Nat)) (i t : Nat), staggerOkB T l = true → lastTimeOk T t l →
      staggerOkB T (l ++ [(i, t)]) = true := by
  intro l
  induction l with
  | nil => intro i t _ _; simp [staggerOkB]
  | cons a l ih =>
    intro i t h hl
    cases l with
    | nil =>
      have ha := hl a (by simp)
      simp only [List.cons_append, List.nil_append, staggerOkB, Bool.and_eq_true,
        decide_eq_true_eq]
      exact ⟨⟨ha.1, ha.2⟩, trivial⟩
    | cons b l2 =>
      simp only [List.cons_append, staggerOkB, Bool.and_eq_true, decide_eq_true_eq] at h ⊢
      refine ⟨h.1, ?_⟩
      have hl2 : lastTimeOk T t (b :: l2) := by
        intro p hp
        apply hl p
        rw [List.getLast?_cons_cons]
        exact hp
      have := ih i t h.2 hl2
      simpa [staggerOkB] using this

/-- The start log of a run lists candidate indices consecutively from 0:
candidates are started strictly in list order. -/
theorem runHE_starts_idx (T : Nat) :
    ∀ (bs : List Behavior) (k : Nat) (st : RunState),
      st.starts.map Prod.fst = List.range k → st.starts.length = k →
      (startsOf (runHE T (List.enumFrom k bs) st)).map Prod.fst
        = List.range (startsOf (runHE T (List.enumFrom k bs) st)).length := by
  intro bs
  induction bs with
  | nil =>
    intro k st h1 h2
    simpa [List.enumFrom, runHE, startsOf, h2] using h1
  | cons b bs ih =>
    intro k st h1 h2
    simp only [List.enumFrom, runHE]
    split
    · next te v heq =>
      simp only [startsOf, List.map_append, List.length_append, h1, h2]
      simp [List.range_succ]
    · next te fl2 heq =>
      apply ih (k + 1)
      · simp [List.map_append, h1, List.range_succ]
      · simp [h2]

/-- Every recorded start happens no earlier than the previous one and no
later than the previous start plus the stagger timeout. -/
theorem runHE_stagger (T : Nat) :
    ∀ (l : List (Nat × Behavior)) (st : RunState),
      staggerOkB T st.starts = true → lastTimeOk T st.t st.starts →
      FlightsLB st.t st.fl →
      staggerOkB T (startsOf (runHE T l st)) = true := by
  intro l
  induction l with
  | nil => intro st h _ _; simpa [runHE, startsOf] using h
  | cons ib rest ih =>
    obtain ⟨i, b⟩ := ib
    intro st h hl hf
    simp only [runHE]
    have hstarts1 : staggerOkB T (st.starts ++ [(i, st.t)]) = true :=
      staggerOk_snoc T st.starts i st.t h hl
    have hflb1 : FlightsLB st.t
        (st.fl ++ [({ idx := i, event := eventOf st.t b } : Flight)]) := by
      intro g hg q hq
      rcases List.mem_append.mp hg with hg1 | hg2
      · exact hf g hg1 q hq
      · have hgeq : g = ({ idx := i, event := eventOf st.t b } : Flight) := by
          simpa using hg2
        subst hgeq
        cases b with
        | succeeds d v =>
          simp only [eventOf] at hq
          cases hq
          exact Nat.le_add_right _ _
        | fails d =>
          simp only [eventOf] at hq
          cases hq
          exact Nat.le_add_right _ _
        | pendingB => simp [eventOf] at hq
    split
    · next te v heq => simpa [startsOf] using hstarts1
    · next te fl2 heq =>
      have hinv := innerLoop_exit_inv (st.t + T) st.previous _ st.t _ te fl2
        (Nat.le_add_right _ _) hflb1 heq
      apply ih
      · exact hstarts1
      · intro p hp
        rw [List.getLast?_concat] at hp
        have hpe : (i, st.t) = p := by simpa using hp
        cases hpe
        exact ⟨hinv.1, hinv.2.1⟩
      · exact hinv.2.2

/-- Runs in which every candidate fails strictly before its stagger timeout:
each next candidate is started immediately at the preceding failure time, so
the start log is the cumulative failure-time log. -/
theorem runHE_allfail (T : Nat) :
    ∀ (ds : List Nat) (k t : Nat) (s0 : List (Nat × Nat)) (prev : Option Nat),
      (∀ d ∈ ds, d < T) → (∀ j, prev = some j → j < k) →
      startsOf (runHE T (List.enumFrom k (ds.map Behavior.fails))
        { t := t, fl := [], starts := s0, previous := prev }) = s0 ++ cumStartsFrom k t ds := by
  intro ds
  induction ds with
  | nil => intro k t s0 prev _ _; simp [runHE, startsOf, cumStartsFrom]
  | cons d ds ih =>
    intro k t s0 prev hd hprev
    have hcond : t + d ≤ t + T := by
      have := hd d (List.mem_cons_self _ _)
      omega
    have hne : ¬some k = prev := by
      intro hcon
      have := hprev k hcon.symm
      omega
    simp only [List.map_cons, List.enumFrom, runHE]
    have hloop : innerLoop (t + T) prev
        ((([] : List Flight)
            ++ [({ idx := k, event := eventOf t (Behavior.fails d) } : Flight)]).length + 1) t
        (([] : List Flight)
            ++ [({ idx := k, event := eventOf t (Behavior.fails d) } : Flight)])
        = InnerRes.exitR (t + d) [] := by
      simp [innerLoop, minFlight, removeFlight, eventOf, hcond, hne]
    rw [hloop]
    have hrec := ih (k + 1) (t + d) (s0 ++ [(k, t)]) (some k)
      (fun d2 hd2 => hd d2 (List.mem_cons_of_mem _ hd2))
      (fun j hj => by cases hj; omega)
    rw [hrec]
    simp [cumStartsFrom]

/-- C10: `mapAbortedToNull(p, s)` resolves with `null` whenever `p` settles
(resolved or rejected) while `s` is defined and aborted; otherwise it resolves
with `p`'s value if `p` resolved and rejects with `p`'s rejection reason if
`p` rejected — with an aborted signal a rejection of `p` is swallowed into
`null`, never surfaced. -/
theorem mapAbortedToNull_spec {E T : Type} (p : Settle E T) (signal : Option Sig) :
    mapAbortedToNull p signal =
      if sigAborted signal then Settle.resolved none else passThroughSome p := by
  cases p <;>
    simp only [mapAbortedToNull, onResolveMA, onRejectMA, passThroughSome] <;>
    by_cases h : sigAborted signal <;> simp [h]

/-- C7 (counterexample): when the given promise rejects first, the abort
listener registered by `raceAbortSignal` is not removed — the race's `.then`
call has no rejection handler, so `cleanup` never runs.  This refutes the
claim that settlement of either kind removes the listener. -/
theorem raceAbortSignal_reject_keeps_listener :
    (raceAbortSignalModel (RaceFirst.rejects 5 : RaceFirst Nat)).listenerRemoved = false := by
  rfl

/-- C7 (amended): once the given promise resolves or the signal aborts first,
the abort listener registered by `raceAbortSignal` is removed; when the given
promise rejects first, the listener is not removed. -/
theorem raceAbortSignal_cleanup_on_resolve_or_abort {T : Type} (v : T) (r e : Nat) :
    (raceAbortSignalModel (RaceFirst.resolves v)).listenerRemoved = true
    ∧ (raceAbortSignalModel (RaceFirst.aborts r : RaceFirst T)).listenerRemoved = true
    ∧ (raceAbortSignalModel (RaceFirst.rejects e : RaceFirst T)).listenerRemoved = false := by
  exact ⟨rfl, rfl, rfl⟩

/-- C6 (counterexample): calling `delay` with an already-aborted signal still
schedules a timer — `setTimeout` runs before the aborted check.  This refutes
the conjunct "no timer is scheduled for this call". -/
theorem delay_aborted_still_schedules_timer :
    (delayCall 100 (some { aborted := true, reason := 7 })).timerScheduled = true := by
  rfl

/-- C6 (amended): for every timeout and every signal that is already aborted
at call time, the promise returned by `delay` rejects immediately (during the
call) with the signal's abort reason; however a timer is nevertheless
scheduled for the call, and an abort listener is registered on the signal. -/
theorem delay_aborted_rejects_immediately (timeout r : Nat) :
    (delayCall timeout (some { aborted := true, reason := r })).immediateResult
        = some (Settle.rejected r)
    ∧ (delayCall timeout (some { aborted := true, reason := r })).timerScheduled = true
    ∧ (delayCall timeout (some { aborted := true, reason := r })).abortListenerAdded = true := by
  exact ⟨rfl, rfl, rfl⟩

/-- C4: an `AbortScope` constructed from a parent signal that is already
aborted is NOT itself aborted — the constructor only registers an `abort`
listener on the parent without checking `parentSignal.aborted`, and the abort
event of an already-aborted signal never fires again.  The spec requires the
new scope to be immediately cancelled; the code leaves it non-aborted. -/
theorem abortScope_aborted_parent_not_propagated :
    (abortScopeNew (some { aborted := true, reason := 0 })).childAborted = false := by
  rfl

/-- C5: disposing an `AbortScope` that was constructed with a (non-aborted)
parent signal does not remove the abort listener it registered on the parent:
the constructor stores `undefined` in `this.parentSignal`, so the removal
branch of `[Symbol.dispose]` is dead and the registration count stays 1. -/
theorem abortScope_dispose_leaves_parent_listener :
    (scopeDispose (abortScopeNew (some { aborted := false, reason := 0 }))).parentListenerCount
      = 1 := by
  rfl

/-- C1: with three `acquire()` calls issued (the first granted immediately,
two queued) followed by the holder's `release()`, grants occur in order
[0, 2] — not the FIFO issue order — and the second request's promise is
still pending: queuing a request overwrites `active.next`, dropping the
previously queued request forever. -/
theorem asyncLock_fifo_violation :
    (runOps [LockOp.acquireOp, LockOp.acquireOp, LockOp.acquireOp,
        LockOp.releaseOp 0]).grantLog = [0, 2]
    ∧ (runOps [LockOp.acquireOp, LockOp.acquireOp, LockOp.acquireOp,
        LockOp.releaseOp 0]).promises
      = [PState.granted, PState.pendingP, PState.granted] := by
  exact ⟨rfl, rfl⟩

/-- C8: with three `acquire()` calls issued (the first granted, two queued),
`dispose()` rejects only the most recently queued request; the other queued
request was dropped from the `next` chain by `acquire` and stays pending
forever, and the granted holder is unaffected. -/
theorem asyncLock_dispose_misses_queued :
    (runOps [LockOp.acquireOp, LockOp.acquireOp, LockOp.acquireOp,
        LockOp.disposeOp]).promises
      = [PState.granted, PState.pendingP, PState.disposedRejected] := by
  rfl

/-- C3: with a single candidate whose attempt would succeed 100 ms after its
start and a stagger timeout of 50 ms, `raceHappyEyes` throws the
`No variants left to attempt` exhaustion error at t = 50 while the attempt of
candidate 0 is still in flight (unsettled) — the inner loop exits on the last
candidate's stagger timeout and the outer loop falls through to the throw. -/
theorem raceHappyEyes_exhaustion_while_in_flight :
    raceHappyEyes 50 [Behavior.succeeds 100 7]
      = RunResult.exhausted 50 [0] [(0, 0)] := by
  rfl

/-- C2 (counterexample): candidates [0, 1, 2] with stagger 50, candidate 0
never settling and candidate 1 failing 10 ms after its start: candidate 1 is
started at t = 50 and fails at t = 60, before its stagger deadline t = 100,
yet candidate 2 is started only at t = 100 — not immediately at the failure —
because the inner loop only breaks on failure of the PREVIOUS candidate and
candidate 0's attempt is still in flight. -/
theorem raceHappyEyes_current_failure_not_immediate :
    raceHappyEyes 50 [Behavior.pendingB, Behavior.fails 10, Behavior.pendingB]
      = RunResult.exhausted 150 [0, 2] [(0, 0), (1, 50), (2, 100)]
    ∧ 50 + 10 < 50 + 50
    ∧ (100 : Nat) ≠ 50 + 10 := by
  exact ⟨rfl, by decide, by decide⟩

/-- C2 (amended): `raceHappyEyes` starts candidates strictly in list order
(the start log lists indices 0, 1, 2, ... consecutively), with nondecreasing
start times and with each candidate i+1 starting no later than candidate i's
stagger timeout (start(i+1) ≤ start(i) + timeout); and whenever every
candidate's attempt fails strictly before its own stagger timeout elapses —
so that no earlier attempt is still in flight when the just-started candidate
fails — each next candidate is started immediately at the preceding
candidate's failure time. -/
theorem raceHappyEyes_stagger (T : Nat) (bs : List Behavior) (ds : List Nat)
    (hd : ∀ d ∈ ds, d < T) :
    ((startsOf (raceHappyEyes T bs)).map Prod.fst
        = List.range (startsOf (raceHappyEyes T bs)).length)
    ∧ staggerOkB T (startsOf (raceHappyEyes T bs)) = true
    ∧ startsOf (raceHappyEyes T (ds.map Behavior.fails)) = cumStarts ds := by
  refine ⟨?_, ?_, ?_⟩
  · have h := runHE_starts_idx T bs 0 { t := 0, fl := [], starts := [], previous := none }
      (by simp) (by simp)
    simpa [raceHappyEyes, List.enum] using h
  · have h := runHE_stagger T bs.enum { t := 0, fl := [], starts := [], previous := none }
      (by simp [staggerOkB]) (by intro p hp; simp at hp) (by intro g hg q hq; cases hg)
    simpa [raceHappyEyes] using h
  · have h := runHE_allfail T ds 0 0 [] none hd (by intro j hj; cases hj)
    simpa [raceHappyEyes, cumStarts, List.enum] using h

/-- C2 (witness): the amended stagger discipline instantiated at stagger 50
with candidates [pending, fails-after-10, pending], and at the all-failing
list with durations [10, 20] (starts at times 0 and 10). -/
theorem raceHappyEyes_stagger_witness :
    ((startsOf (raceHappyEyes 50
          [Behavior.pendingB, Behavior.fails 10, Behavior.pendingB])).map Prod.fst
        = List.range (startsOf (raceHappyEyes 50
          [Behavior.pendingB, Behavior.fails 10, Behavior.pendingB])).length)
    ∧ staggerOkB 50 (startsOf (raceHappyEyes 50
        [Behavior.pendingB, Behavior.fails 10, Behavior.pendingB])) = true
    ∧ startsOf (raceHappyEyes 50 (([10, 20] : List Nat).map Behavior.fails))
        = cumStarts [10, 20] :=
  raceHappyEyes_stagger 50 [Behavior.pendingB, Behavior.fails 10, Behavior.pendingB]
    [10, 20] (by decide)

/-- C9 (counterexample): a `KeyedObserver` whose `subscribe` finds no backing
object (returns `undefined`) and is asked to observe the duplicate key list
[3, 3] after a first `observe([])` call invokes `subscribe` twice for the
single distinct untracked key 3 — the key never enters `newObservedKeys`, so
the duplicate occurrence is not skipped.  This refutes "invokes subscribe
exactly once for each distinct key ... with duplicate keys treated as a
set". -/
theorem keyedObserver_duplicate_subscribe_twice :
    (observe (fun _ => none) (observe (fun _ => none) [] []).tracked [3, 3]).subCalls
      = [3, 3]
    ∧ occ 3 [3, 3] = 2 ∧ (2 : Nat) ≠ 1 := by
  exact ⟨rfl, rfl, by decide⟩

end Reactodia
